import Mathlib

/-!
Verification of `bevy_http` (`src/lib.rs`): an HTTP-backed asset reader.

The development shallowly embeds the reader's logic:

* Path resolution: `read`/`read_meta` call Rust's
  `str::replace(&self.fake_slash, "/")` on the displayed path.  `rustReplace`
  models `str::replace` with replacement `"/"`: for a non-empty pattern it
  replaces the leftmost, non-overlapping occurrences (the semantics of
  `str::match_indices`), and for the empty pattern `match_indices` matches at
  every character boundary, so a separator is inserted before, between and
  after all characters.
* `fetch_bytes`: transport outcome and HTTP status mapping to the
  `AssetReaderError` taxonomy (`NotFound` for 404, `Io` otherwise).
* Stubs `read_directory` / `is_directory` and the `EmptyPathStream`.
* Fail-fast construction `HttpAssetReader.new`, with the external URL parser
  and client builder (`surf::Url::parse`, `Config::try_into`) abstracted as
  function parameters; their `expect` panics are modelled as `none`.

Strings are modelled as `List Char`, response bodies as `List Nat` (bytes).
-/

namespace BevyHttp

abbrev Path := List Char

abbrev Bytes := List Nat

/-- The fixed suffix `".meta"` appended by `read_meta` (src/lib.rs line 98). -/
def metaSuffix : Path := ['.', 'm', 'e', 't', 'a']

/-- Scanner of Rust `str::replace(pat, "/")` for a NON-empty pattern `s`,
structurally recursive on the haystack.  `skip` counts characters of an
already-emitted match that remain to be consumed: after a match of `s` at the
head we output `'/'`, consume the head character, and set `skip := s.length - 1`
so the rest of the match is consumed without output.  `replaceGo s 0` is the
leftmost non-overlapping replace-all of `str::match_indices`. -/
def replaceGo (s : List Char) (skip : Nat) : List Char → List Char
  | [] => []
  | c :: rest =>
    match skip with
    | k + 1 => replaceGo s k rest
    | 0 =>
      if s.isPrefixOf (c :: rest) then
        '/' :: replaceGo s (s.length - 1) rest
      else
        c :: replaceGo s 0 rest

/-- Rust `str::replace("", "/")`: `match_indices` of the empty pattern matches
at every character boundary (including position 0 and the end of the string),
so `"ab".replace("", "/") == "/a/b/"`. -/
def interleaveSlash : List Char → List Char
  | [] => ['/']
  | c :: rest => '/' :: c :: interleaveSlash rest

/-- Model of `path.replace(&self.fake_slash, "/")` (Rust `str::replace` with
replacement `"/"`); `p` is the haystack, `s` the pattern. -/
def rustReplace (p : List Char) (s : List Char) : List Char :=
  match s with
  | [] => interleaveSlash p
  | _ :: _ => replaceGo s 0 p

/-- A parsed base URL (`surf::Url`); contents opaque to this component. -/
structure Url where
  raw : List Char
deriving DecidableEq

/-- The configured `surf::Client`: a base URL and the fixed 5-second timeout
set in `HttpAssetReader::new`. -/
structure SurfClient where
  base_url : Url
  timeout_secs : Nat
deriving DecidableEq

/-- The reader: an HTTP client plus the escape ("fake slash") sequence
(src/lib.rs lines 14–20). -/
structure HttpAssetReader where
  client : SurfClient
  fake_slash : List Char

/-- Result of awaiting `resp.body_bytes()`: the bytes, or a read failure. -/
inductive BodyResult where
  | ok (bytes : Bytes)
  | err
deriving DecidableEq

/-- Outcome of `self.client.get(path).await`: a transport/connection error, or
a response with a status code and a body read outcome. -/
inductive TransportOutcome where
  | connError
  | response (status : Nat) (body : BodyResult)
deriving DecidableEq

/-- The three `std::io::Error` messages built in `fetch_bytes`, kept
structured: `"error fetching {path}: {e}"`, `"bad status code: {status}"`,
`"error getting bytes for {path}: {e}"`. -/
inductive IoMsg where
  | errorFetching (path : Path)
  | badStatusCode (status : Nat)
  | errorGettingBytes (path : Path)
deriving DecidableEq

/-- `bevy::asset::io::AssetReaderError`, restricted to the variants this crate
produces. -/
inductive AssetReaderError where
  | notFound (path : Path)
  | io (msg : IoMsg)
deriving DecidableEq

/-- `http_types::StatusCode::is_success`: the 200–299 range. -/
def isSuccess (status : Nat) : Bool := 200 ≤ status && status < 300

/-- `HttpAssetReader::fetch_bytes` (src/lib.rs lines 35–68): map the transport
outcome at `path` to bytes or an `AssetReaderError`, following the source's
order: connection error, then non-success status (404 vs other), then body
read. -/
def fetch_bytes (get : Path → TransportOutcome) (path : Path) :
    Except AssetReaderError Bytes :=
  match get path with
  | .connError => .error (.io (.errorFetching path))
  | .response status body =>
    if isSuccess status then
      match body with
      | .err => .error (.io (.errorGettingBytes path))
      | .ok bytes => .ok bytes
    else if status = 404 then
      .error (.notFound path)
    else
      .error (.io (.badStatusCode status))

/-- The path-resolution step of `read` (src/lib.rs line 88):
`path.display().to_string().replace(&self.fake_slash, "/")`. -/
def HttpAssetReader.resolve (r : HttpAssetReader) (path : Path) : Path :=
  rustReplace path r.fake_slash

/-- The path `read_meta` fetches (src/lib.rs lines 97–98): the resolved path
with `".meta"` appended. -/
def HttpAssetReader.resolveMeta (r : HttpAssetReader) (path : Path) : Path :=
  rustReplace path r.fake_slash ++ metaSuffix

/-- `AssetReader::read` for `HttpAssetReader` (src/lib.rs lines 84–90); the
client's network behaviour is the parameter `get`. -/
def HttpAssetReader.read (r : HttpAssetReader) (get : Path → TransportOutcome)
    (path : Path) : Except AssetReaderError Bytes :=
  fetch_bytes get (rustReplace path r.fake_slash)

/-- `AssetReader::read_meta` for `HttpAssetReader` (src/lib.rs lines 92–101). -/
def HttpAssetReader.read_meta (r : HttpAssetReader) (get : Path → TransportOutcome)
    (path : Path) : Except AssetReaderError Bytes :=
  fetch_bytes get (rustReplace path r.fake_slash ++ metaSuffix)

/-- A polled stream of paths: `pollNext n` is the value produced by the
`n`-th poll (`none` models `Poll::Ready(None)`, stream exhausted). -/
structure PathStream where
  pollNext : Nat → Option Path

/-- `EmptyPathStream` (src/lib.rs lines 70–81): `poll_next` always returns
`Poll::Ready(None)`. -/
def EmptyPathStream : PathStream := ⟨fun _ => none⟩

/-- `AssetReader::read_directory` (src/lib.rs lines 103–110): ignores the path
and the transport, returns `Ok` of the empty stream. -/
def HttpAssetReader.read_directory (_r : HttpAssetReader)
    (_get : Path → TransportOutcome) (_path : Path) :
    Except AssetReaderError PathStream :=
  .ok EmptyPathStream

/-- `AssetReader::is_directory` (src/lib.rs lines 112–118): ignores the path
and the transport, returns `Ok false`. -/
def HttpAssetReader.is_directory (_r : HttpAssetReader)
    (_get : Path → TransportOutcome) (_path : Path) :
    Except AssetReaderError Bool :=
  .ok false

/-- `HttpAssetReader::new` (src/lib.rs lines 24–33).  The external
`surf::Url::parse` and the client construction `Config::try_into` are passed
in as functions returning `none` on failure; each `.expect(..)` panic (startup
abort) is modelled by propagating `none`.  No transport is consulted. -/
def HttpAssetReader.new (parseUrl : List Char → Option Url)
    (tryIntoClient : Url → Nat → Option SurfClient)
    (base_url : List Char) (fake_slash : List Char) : Option HttpAssetReader :=
  match parseUrl base_url with
  | none => none
  | some u =>
    match tryIntoClient u 5 with
    | none => none
    | some c => some { client := c, fake_slash := fake_slash }

/-- Join a list of segments with a separator between consecutive segments:
`joinSep sep [t0, t1, ..., tk] = t0 ++ sep ++ t1 ++ sep ++ ... ++ sep ++ tk`. -/
def joinSep (sep : List Char) : List (List Char) → List Char
  | [] => []
  | [t] => t
  | t :: ts => t ++ sep ++ joinSep sep ts

/-- A sample reader with escape sequence `"q"`, used to exercise the theorems
on concrete inputs. -/
def sampleReader : HttpAssetReader :=
  { client := { base_url := ⟨[]⟩, timeout_secs := 5 }, fake_slash := ['q'] }

/-- A sample reader whose escape sequence is the empty string. -/
def emptyEscapeReader : HttpAssetReader :=
  { client := { base_url := ⟨[]⟩, timeout_secs := 5 }, fake_slash := [] }

/-- A transport answering HTTP 404 to every request. -/
def t404 : Path → TransportOutcome := fun _ => .response 404 .err

/-- A transport answering HTTP 500 to every request. -/
def t500 : Path → TransportOutcome := fun _ => .response 500 .err

/-- A transport answering HTTP 200 with body `[7, 8, 9]` to every request. -/
def t200 : Path → TransportOutcome := fun _ => .response 200 (.ok [7, 8, 9])

/-- A URL parser that rejects every input, standing for `surf::Url::parse`
applied to a syntactically invalid base URL. -/
def rejectingParse : List Char → Option Url := fun _ => none

/-- A client builder that always succeeds, standing for a well-behaved
`Config::try_into`. -/
def okClientBuild : Url → Nat → Option SurfClient := fun u t => some ⟨u, t⟩

theorem replaceGo_skip (s : List Char) (p : List Char) :
    ∀ k : Nat, replaceGo s k p = replaceGo s 0 (List.drop k p) := by
  induction p with
  | nil => intro k; simp [replaceGo]
  | cons c rest ih =>
    intro k
    cases k with
    | zero => rfl
    | succ j =>
      rw [show replaceGo s (j + 1) (c :: rest) = replaceGo s j rest from rfl,
        ih j, List.drop_succ_cons]

theorem isPrefixOf_append_right (s z : List Char) : s.isPrefixOf (s ++ z) = true := by
  induction s with
  | nil => simp [List.isPrefixOf]
  | cons a as ih =>
    rw [List.cons_append,
      show (a :: as).isPrefixOf (a :: (as ++ z)) = (a == a && as.isPrefixOf (as ++ z)) from rfl,
      ih]
    simp

theorem append_drop_of_isPrefixOf (s : List Char) :
    ∀ p : List Char, s.isPrefixOf p = true → s ++ List.drop s.length p = p := by
  induction s with
  | nil => intro p _; simp
  | cons a as ih =>
    intro p h
    cases p with
    | nil => simp [List.isPrefixOf] at h
    | cons b bs =>
      rw [show (a :: as).isPrefixOf (b :: bs) = (a == b && as.isPrefixOf bs) from rfl,
        Bool.and_eq_true, beq_iff_eq] at h
      obtain ⟨hab, hpre⟩ := h
      subst hab
      simpa using ih bs hpre

theorem replaceGo_cons_pos (s : List Char) (c : Char) (rest : List Char)
    (h : s.isPrefixOf (c :: rest) = true) :
    replaceGo s 0 (c :: rest) = '/' :: replaceGo s 0 (List.drop (s.length - 1) rest) := by
  rw [show replaceGo s 0 (c :: rest) =
      (if s.isPrefixOf (c :: rest) then '/' :: replaceGo s (s.length - 1) rest
       else c :: replaceGo s 0 rest) from rfl]
  rw [if_pos h, replaceGo_skip]

theorem replaceGo_cons_neg (s : List Char) (c : Char) (rest : List Char)
    (h : s.isPrefixOf (c :: rest) = false) :
    replaceGo s 0 (c :: rest) = c :: replaceGo s 0 rest := by
  rw [show replaceGo s 0 (c :: rest) =
      (if s.isPrefixOf (c :: rest) then '/' :: replaceGo s (s.length - 1) rest
       else c :: replaceGo s 0 rest) from rfl]
  simp [h]

theorem joinSep_cons (sep x : List Char) (ts : List (List Char)) (h : ts ≠ []) :
    joinSep sep (x :: ts) = x ++ sep ++ joinSep sep ts := by
  cases ts with
  | nil => exact absurd rfl h
  | cons t ts' => rfl

theorem joinSep_cons_head (sep : List Char) (c : Char) (t : List Char)
    (ts : List (List Char)) :
    joinSep sep ((c :: t) :: ts) = c :: joinSep sep (t :: ts) := by
  cases ts with
  | nil => rfl
  | cons u us => simp [joinSep]

theorem joinSep_head_prefix_aux (sep t : List Char) (ts : List (List Char)) :
    ∃ w, joinSep sep (t :: ts) = t ++ w := by
  cases ts with
  | nil => exact ⟨[], by simp [joinSep]⟩
  | cons u us => exact ⟨sep ++ joinSep sep (u :: us), by simp [joinSep]⟩

theorem not_infix_nil {s : List Char} (hs : s ≠ []) : ¬ s <:+: ([] : List Char) := by
  rintro ⟨u, v, huv⟩
  simp [List.append_eq_nil] at huv
  exact hs huv.2.1

theorem interleaveSlash_eq_flatMap (p : List Char) :
    interleaveSlash p = '/' :: p.flatMap (fun c => [c, '/']) := by
  induction p with
  | nil => rfl
  | cons c rest ih => simp [interleaveSlash, ih]

theorem replace_decomp (s : List Char) (hs : s ≠ []) :
    ∀ n : Nat, ∀ p : List Char, p.length ≤ n →
    ∃ parts : List (List Char), parts ≠ [] ∧ (∀ t ∈ parts, ¬ s <:+: t) ∧
      joinSep s parts = p ∧ joinSep ['/'] parts = replaceGo s 0 p := by
  intro n
  induction n with
  | zero =>
    intro p hp
    have hpnil : p = [] := List.length_eq_zero.mp (Nat.le_zero.mp hp)
    subst hpnil
    refine ⟨[[]], by simp, ?_, rfl, rfl⟩
    intro t ht
    simp at ht
    subst ht
    exact not_infix_nil hs
  | succ n ih =>
    intro p hp
    cases p with
    | nil =>
      refine ⟨[[]], by simp, ?_, rfl, rfl⟩
      intro t ht
      simp at ht
      subst ht
      exact not_infix_nil hs
    | cons c rest =>
      have hrest : rest.length ≤ n := by simp at hp; omega
      by_cases h : s.isPrefixOf (c :: rest) = true
      · obtain ⟨parts, pne, pinf, hj, hr⟩ :=
          ih (List.drop (s.length - 1) rest) (by simp [List.length_drop]; omega)
        refine ⟨[] :: parts, by simp, ?_, ?_, ?_⟩
        · intro t ht
          rcases List.mem_cons.mp ht with h1 | h1
          · subst h1
            exact not_infix_nil hs
          · exact pinf t h1
        · rw [joinSep_cons s [] parts pne, List.nil_append, hj]
          have h2 := append_drop_of_isPrefixOf s (c :: rest) h
          have h3 : List.drop s.length (c :: rest) = List.drop (s.length - 1) rest := by
            obtain ⟨m, hm⟩ : ∃ m, s.length = m + 1 := by
              cases hcs : s with
              | nil => exact absurd hcs hs
              | cons a s' => exact ⟨s'.length, by simp⟩
            rw [hm, List.drop_succ_cons, Nat.add_sub_cancel]
          rw [h3] at h2
          exact h2
        · rw [joinSep_cons ['/'] [] parts pne, List.nil_append, hr,
            replaceGo_cons_pos s c rest h]
          rfl
      · have h' : s.isPrefixOf (c :: rest) = false := by
          cases hb : s.isPrefixOf (c :: rest)
          · rfl
          · exact absurd hb h
        obtain ⟨parts, pne, pinf, hj, hr⟩ := ih rest hrest
        obtain ⟨t, ts, rfl⟩ : ∃ t ts, parts = t :: ts := by
          cases parts with
          | nil => exact absurd rfl pne
          | cons t ts => exact ⟨t, ts, rfl⟩
        refine ⟨(c :: t) :: ts, by simp, ?_, ?_, ?_⟩
        · intro x hx
          rcases List.mem_cons.mp hx with h1 | h1
          · subst h1
            rintro ⟨u, v, huv⟩
            cases u with
            | nil =>
              rw [List.nil_append] at huv
              obtain ⟨w, hw⟩ := joinSep_head_prefix_aux s t ts
              have hrw : rest = t ++ w := hj.symm.trans hw
              have hpre : s.isPrefixOf (c :: rest) = true := by
                have hcr : c :: rest = s ++ (v ++ w) := by
                  rw [hrw, show c :: (t ++ w) = (c :: t) ++ w from rfl, ← huv,
                    List.append_assoc]
                rw [hcr]
                exact isPrefixOf_append_right s (v ++ w)
              rw [h'] at hpre
              exact Bool.false_ne_true hpre
            | cons c' u' =>
              rw [List.cons_append, List.cons_append] at huv
              injection huv with hc ht2
              exact pinf t (List.mem_cons_self t ts) ⟨u', v, ht2⟩
          · exact pinf x (List.mem_cons_of_mem t h1)
        · rw [joinSep_cons_head s c t ts, hj]
        · rw [joinSep_cons_head ['/'] c t ts, hr, replaceGo_cons_neg s c rest h']

theorem replaceGo_id_of_no_infix (s : List Char) :
    ∀ n : Nat, ∀ p : List Char, p.length ≤ n → ¬ s <:+: p → replaceGo s 0 p = p := by
  intro n
  induction n with
  | zero =>
    intro p hp _
    have hpnil : p = [] := List.length_eq_zero.mp (Nat.le_zero.mp hp)
    subst hpnil
    rfl
  | succ n ih =>
    intro p hp hinf
    cases p with
    | nil => rfl
    | cons c rest =>
      have h' : s.isPrefixOf (c :: rest) = false := by
        cases hb : s.isPrefixOf (c :: rest)
        · rfl
        · exfalso
          apply hinf
          exact ⟨[], List.drop s.length (c :: rest), by
            simpa using append_drop_of_isPrefixOf s (c :: rest) hb⟩
      rw [replaceGo_cons_neg s c rest h']
      have hrest : ¬ s <:+: rest := by
        rintro ⟨u, v, huv⟩
        exact hinf ⟨c :: u, v, by rw [← huv]; simp⟩
      rw [ih rest (by simp at hp; omega) hrest]

theorem interleaveSlash_length (p : List Char) :
    (interleaveSlash p).length = 2 * p.length + 1 := by
  induction p with
  | nil => rfl
  | cons c rest ih =>
    rw [show interleaveSlash (c :: rest) = '/' :: c :: interleaveSlash rest from rfl]
    simp [ih]
    omega

/-- C1: for every non-empty escape sequence and path, the resolution performed
by `read` (and `read_meta`) replaces every occurrence of the escape sequence by
the separator `'/'`: the path splits into escape-free segments joined by the
escape sequence, and the resolved path is exactly those segments joined by
`'/'`.  Adjacent occurrences give empty middle segments, an occurrence at the
start or end gives an empty first or last segment, and overlapping occurrences
are consumed leftmost-first so that no segment still contains the escape
sequence. -/
theorem resolve_replaces_every_escape_occurrence (r : HttpAssetReader) (p : Path)
    (hs : r.fake_slash ≠ []) :
    ∃ parts : List (List Char), parts ≠ [] ∧
      (∀ t ∈ parts, ¬ r.fake_slash <:+: t) ∧
      joinSep r.fake_slash parts = p ∧
      joinSep ['/'] parts = r.resolve p := by
  obtain ⟨a, s', hfs⟩ : ∃ a s', r.fake_slash = a :: s' := by
    cases hcs : r.fake_slash with
    | nil => exact absurd hcs hs
    | cons a s' => exact ⟨a, s', rfl⟩
  have hres : r.resolve p = replaceGo (a :: s') 0 p := by
    rw [show r.resolve p = rustReplace p r.fake_slash from rfl, hfs]
    rfl
  rw [hfs, hres]
  exact replace_decomp (a :: s') (by simp) p.length p (Nat.le_refl _)

theorem resolve_replaces_every_escape_occurrence_witness :
    sampleReader.fake_slash ≠ [] ∧
    (∃ parts : List (List Char), parts ≠ [] ∧
      (∀ t ∈ parts, ¬ sampleReader.fake_slash <:+: t) ∧
      joinSep sampleReader.fake_slash parts = ['q', 'a', 'q'] ∧
      joinSep ['/'] parts = sampleReader.resolve ['q', 'a', 'q']) :=
  ⟨by decide,
    resolve_replaces_every_escape_occurrence sampleReader ['q', 'a', 'q'] (by decide)⟩

/-- C2: when the path contains no occurrence of the configured escape
sequence, the resolution step is the identity, so the string handed to the
HTTP fetch is the path unchanged. -/
theorem resolve_identity_without_escape_occurrence (r : HttpAssetReader) (p : Path)
    (h : ¬ r.fake_slash <:+: p) :
    r.resolve p = p ∧ ∀ get, r.read get p = fetch_bytes get p := by
  have hres : rustReplace p r.fake_slash = p := by
    cases hfs : r.fake_slash with
    | nil =>
      rw [hfs] at h
      exact absurd ⟨[], p, by simp⟩ h
    | cons a s' =>
      rw [hfs] at h
      exact replaceGo_id_of_no_infix (a :: s') p.length p (Nat.le_refl _) h
  exact ⟨hres, fun get => by
    show fetch_bytes get (rustReplace p r.fake_slash) = fetch_bytes get p
    rw [hres]⟩

theorem resolve_identity_without_escape_occurrence_witness :
    (¬ sampleReader.fake_slash <:+: ['a', 'b']) ∧
    sampleReader.resolve ['a', 'b'] = ['a', 'b'] ∧
    sampleReader.read t500 ['a', 'b'] = fetch_bytes t500 ['a', 'b'] :=
  ⟨by decide,
    (resolve_identity_without_escape_occurrence sampleReader ['a', 'b'] (by decide)).1,
    (resolve_identity_without_escape_occurrence sampleReader ['a', 'b'] (by decide)).2 t500⟩

/-- C3: the path fetched by `read_meta` is the path fetched by `read` with the
fixed suffix `".meta"` appended; the escape-sequence replacement happens
before the suffix is appended (the suffix is added to the already-resolved
path, and the fetch is issued on that string for every transport). -/
theorem read_meta_fetches_resolved_path_plus_meta (r : HttpAssetReader) (p : Path) :
    r.resolveMeta p = r.resolve p ++ metaSuffix ∧
    ∀ get, r.read_meta get p = fetch_bytes get (r.resolve p ++ metaSuffix) :=
  ⟨rfl, fun _ => rfl⟩

/-- C4 as stated is false: on HTTP 404 the code attaches the RESOLVED path to
the Not-Found error, not the caller's path `p`.  Concretely, with escape
sequence `"q"` and path `"aqb"`, a transport answering 404 makes `read`
return Not-Found carrying `"a/b"`, which differs from `"aqb"`. -/
theorem read_notFound_carries_caller_path_counterexample :
    sampleReader.read t404 ['a', 'q', 'b'] = .error (.notFound ['a', '/', 'b']) ∧
    (['a', '/', 'b'] : Path) ≠ ['a', 'q', 'b'] :=
  ⟨rfl, by decide⟩

/-- C4 (amended): if the transport answers the resolved request with HTTP 404,
`read p` returns a Not-Found error whose attached path is the resolved path
(which equals `p` exactly when `p` contains no escape-sequence occurrence). -/
theorem read_notFound_carries_resolved_path (r : HttpAssetReader)
    (get : Path → TransportOutcome) (p : Path) (body : BodyResult)
    (h : get (r.resolve p) = .response 404 body) :
    r.read get p = .error (.notFound (r.resolve p)) := by
  show fetch_bytes get (r.resolve p) = _
  unfold fetch_bytes
  rw [h]
  rfl

theorem read_notFound_carries_resolved_path_witness :
    t404 (sampleReader.resolve ['a', 'q', 'b']) = .response 404 .err ∧
    sampleReader.read t404 ['a', 'q', 'b']
      = .error (.notFound (sampleReader.resolve ['a', 'q', 'b'])) :=
  ⟨rfl, read_notFound_carries_resolved_path sampleReader t404 ['a', 'q', 'b'] .err rfl⟩

/-- C5: if the transport answers the resolved request with a status outside
the success range and different from 404 (e.g. 500), `read` returns the
generic I/O-kind error carrying the status code, and never a Not-Found
error. -/
theorem read_other_status_yields_io_error (r : HttpAssetReader)
    (get : Path → TransportOutcome) (p : Path) (status : Nat) (body : BodyResult)
    (h : get (r.resolve p) = .response status body)
    (hs : isSuccess status = false) (h404 : status ≠ 404) :
    r.read get p = .error (.io (.badStatusCode status)) ∧
    ∀ q, r.read get p ≠ .error (.notFound q) := by
  have hmain : r.read get p = .error (.io (.badStatusCode status)) := by
    show fetch_bytes get (r.resolve p) = _
    unfold fetch_bytes
    rw [h]
    simp [hs, h404]
  exact ⟨hmain, fun q => by rw [hmain]; simp⟩

theorem read_other_status_yields_io_error_witness :
    t500 (sampleReader.resolve ['a', 'b']) = .response 500 .err ∧
    isSuccess 500 = false ∧ (500 : Nat) ≠ 404 ∧
    sampleReader.read t500 ['a', 'b'] = .error (.io (.badStatusCode 500)) :=
  ⟨rfl, rfl, by decide,
    (read_other_status_yields_io_error sampleReader t500 ['a', 'b'] 500 .err rfl rfl
      (by decide)).1⟩

/-- C6: if the transport answers the resolved request with HTTP 200 and the
body read succeeds with bytes `B`, `read` returns exactly `B`. -/
theorem read_success_returns_body (r : HttpAssetReader)
    (get : Path → TransportOutcome) (p : Path) (B : Bytes)
    (h : get (r.resolve p) = .response 200 (.ok B)) :
    r.read get p = .ok B := by
  show fetch_bytes get (r.resolve p) = _
  unfold fetch_bytes
  rw [h]
  rfl

theorem read_success_returns_body_witness :
    t200 (sampleReader.resolve ['a', 'b']) = .response 200 (.ok [7, 8, 9]) ∧
    sampleReader.read t200 ['a', 'b'] = .ok [7, 8, 9] :=
  ⟨rfl, read_success_returns_body sampleReader t200 ['a', 'b'] [7, 8, 9] rfl⟩

/-- C7: for every path and every transport, `read_directory` succeeds with the
immediately-exhausted empty stream (every poll yields nothing) and
`is_directory` succeeds with `false`; neither ever returns an error. -/
theorem directory_ops_never_fail (r : HttpAssetReader)
    (get : Path → TransportOutcome) (p : Path) :
    r.read_directory get p = .ok EmptyPathStream ∧
    (∀ n, EmptyPathStream.pollNext n = none) ∧
    r.is_directory get p = .ok false :=
  ⟨rfl, fun _ => rfl, rfl⟩

/-- C8: if the base URL does not parse, constructing the reader fails
(`HttpAssetReader.new` aborts, modelled as `none`) — a construction-time
failure; `new` consults no transport, so no HTTP request can have been
issued, and the failure is not an `AssetReaderError` surfaced per request. -/
theorem new_fails_fast_on_invalid_base_url (parseUrl : List Char → Option Url)
    (tryIntoClient : Url → Nat → Option SurfClient)
    (base_url fake_slash : List Char)
    (h : parseUrl base_url = none) :
    HttpAssetReader.new parseUrl tryIntoClient base_url fake_slash = none := by
  unfold HttpAssetReader.new
  rw [h]

theorem new_fails_fast_on_invalid_base_url_witness :
    rejectingParse ['u', 'r', 'l'] = none ∧
    HttpAssetReader.new rejectingParse okClientBuild ['u', 'r', 'l'] ['q'] = none :=
  ⟨rfl,
    new_fails_fast_on_invalid_base_url rejectingParse okClientBuild ['u', 'r', 'l'] ['q'] rfl⟩

/-- C9: with an empty escape sequence, the resolution step inserts a `'/'` at
every character boundary of the path — before the first character, between any
two characters, and after the last (so `"ab"` resolves to `"/a/b/"`) — and in
particular the resolved string differs from the path for every path. -/
theorem empty_escape_separates_every_char (r : HttpAssetReader) (p : Path)
    (h : r.fake_slash = []) :
    r.resolve p = '/' :: p.flatMap (fun c => [c, '/']) ∧ r.resolve p ≠ p := by
  have h1 : r.resolve p = interleaveSlash p := by
    rw [show r.resolve p = rustReplace p r.fake_slash from rfl, h]
    rfl
  constructor
  · rw [h1, interleaveSlash_eq_flatMap]
  · rw [h1]
    intro hEq
    have hlen := congrArg List.length hEq
    rw [interleaveSlash_length] at hlen
    omega

theorem empty_escape_separates_every_char_witness :
    emptyEscapeReader.fake_slash = [] ∧
    emptyEscapeReader.resolve ['a', 'b'] = ['/', 'a', '/', 'b', '/'] ∧
    emptyEscapeReader.resolve ['a', 'b'] ≠ ['a', 'b'] :=
  ⟨rfl, by decide, (empty_escape_separates_every_char emptyEscapeReader ['a', 'b'] rfl).2⟩

/-- C10: if the transport answers the metadata request with HTTP 404,
`read_meta p` returns a Not-Found error whose attached path is the resolved
path with `".meta"` already appended (the path `fetch_bytes` was called with),
not the caller's original path. -/
theorem read_meta_notFound_carries_meta_path (r : HttpAssetReader)
    (get : Path → TransportOutcome) (p : Path) (body : BodyResult)
    (h : get (r.resolveMeta p) = .response 404 body) :
    r.read_meta get p = .error (.notFound (r.resolveMeta p)) := by
  show fetch_bytes get (r.resolveMeta p) = _
  unfold fetch_bytes
  rw [h]
  rfl

theorem read_meta_notFound_carries_meta_path_witness :
    t404 (sampleReader.resolveMeta ['a', 'q', 'b']) = .response 404 .err ∧
    sampleReader.read_meta t404 ['a', 'q', 'b']
      = .error (.notFound (sampleReader.resolveMeta ['a', 'q', 'b'])) :=
  ⟨rfl, read_meta_notFound_carries_meta_path sampleReader t404 ['a', 'q', 'b'] .err rfl⟩

end BevyHttp
